import Mathlib

/-!
Verification of the nemonic repository's retrieval engine, usage accountant,
context assembler and streaming completion client against its specification.

Conventions of the shallow embedding:
* JavaScript strings are modelled as `List Char` (for the inputs considered,
  UTF-16 code units coincide with code points).
* JavaScript numbers that only ever hold integers are modelled as `Int`
  (with explicit 32-bit wrapping where the source uses bitwise operators);
  genuinely real-valued quantities (embeddings, similarities) are modelled
  as exact reals, with the one float-specific behaviour that matters
  (`0/0 = NaN` in `cosineSimilarity`) tracked by an explicit predicate.
* The `while` loop of `chunkText` is modelled with explicit fuel: `none`
  means the loop did not terminate within the given fuel.
* The platform's `JSON.parse` is modelled by a small recursive-descent
  parser restricted to the grammar the wire protocol uses (objects, arrays,
  strings with simple escapes, integer numerals, `null`/`true`/`false`);
  like `JSON.parse` it fails on trailing garbage, and duplicate object keys
  resolve to the last occurrence.
-/

namespace Nemonic

set_option maxRecDepth 10000

/-! ### `chunkText` (src/services/storage.ts, lines 277-288)

```ts
export function chunkText(text: string, chunkSize: number = 1000, overlap: number = 200): string[] {
  const chunks: string[] = [];
  let start = 0;
  while (start < text.length) {
    const end = Math.min(start + chunkSize, text.length);
    chunks.push(text.slice(start, end));
    start = end - overlap;
  }
  return chunks;
}
```
-/

/-- JavaScript `String.prototype.slice(a, b)`: negative indices count from the
end, indices are clamped to `[0, length]`, and an empty string results when
the normalized start is not before the normalized end. -/
def jsSlice (l : List Char) (a b : Int) : List Char :=
  let n : Int := l.length
  let lo := if a < 0 then max (n + a) 0 else min a n
  let hi := if b < 0 then max (n + b) 0 else min b n
  (l.take hi.toNat).drop lo.toNat

/-- The body of `chunkText`'s `while` loop, with explicit fuel.  The state is
the mutable `start` variable (an `Int`: the source can drive it negative via
`end - overlap`) and the accumulated `chunks` array.  `none` means the fuel
ran out, i.e. the loop has not terminated after that many iterations. -/
def chunkTextLoop (text : List Char) (chunkSize overlap : Int) :
    Nat → Int → List (List Char) → Option (List (List Char))
  | 0, _, _ => none
  | fuel + 1, start, chunks =>
    if start < (text.length : Int) then
      let e := min (start + chunkSize) (text.length : Int)
      chunkTextLoop text chunkSize overlap fuel (e - overlap) (chunks ++ [jsSlice text start e])
    else
      some chunks

/-- `chunkText(text, chunkSize, overlap)` run with the given iteration budget. -/
def chunkText (text : List Char) (chunkSize overlap : Int) (fuel : Nat) :
    Option (List (List Char)) :=
  chunkTextLoop text chunkSize overlap fuel 0 []

/-! ### The hash-based embedding (src/services/storage.ts, lines 309-333) -/

/-- Whitespace, for `\s` in the tokenizer's `split(/\s+/)`, for `trim()`
emptiness tests and for the whitespace JSON skips (the sources only ever
meet these four whitespace characters). -/
def isWsChar (c : Char) : Bool :=
  c = ' ' || c = '\t' || c = '\n' || c = '\r'

/-- JavaScript `text.split(/\s+/)`: splits on maximal whitespace runs,
keeping empty fragments at the start and end (so `"".split` is `[""]` and
`" a".split` is `["", "a"]`, exactly as in JS). -/
def splitWsAux : (l : List Char) → (acc : List Char) → List (List Char)
  | [], acc => [acc.reverse]
  | c :: rest, acc =>
    if isWsChar c then acc.reverse :: splitWsAux (rest.dropWhile isWsChar) []
    else splitWsAux rest (c :: acc)
termination_by l acc => l.length
decreasing_by
  · exact Nat.lt_succ_of_le (List.dropWhile_suffix _).length_le
  · exact Nat.lt_succ_self _

def splitWs (l : List Char) : List (List Char) :=
  splitWsAux l []

/-- `ToInt32`: JavaScript's conversion to a signed 32-bit integer, used by
the `<<` and `&` operators in the hash. -/
def jsToInt32 (x : Int) : Int :=
  let m := x % 4294967296
  if m < 2147483648 then m else m - 4294967296

/-- One iteration of the source's inline `hash` function:
`hash = ((hash << 5) - hash) + char; hash = hash & hash;`.
For `hash` already an int32, `hash << 5` is `ToInt32(hash * 32)`, the
addition is exact in doubles at these magnitudes, and `hash & hash` is
`ToInt32` of the result. -/
def hashStep (h : Int) (c : Char) : Int :=
  jsToInt32 (jsToInt32 (h * 32) - h + c.toNat)

def jsHash (w : List Char) : Int :=
  w.foldl hashStep 0

/-- `Math.abs(hash) % 128`: the bucket a token lands in. -/
def bucketOf (w : List Char) : Nat :=
  (jsHash w).natAbs % 128

/-- `embedding[i] += x` (no-op beyond the array bound, which never happens
since buckets are reduced mod 128). -/
def updateAdd (v : List ℚ) (i : Nat) (x : ℚ) : List ℚ :=
  v.set i (v.getD i 0 + x)

/-- One step of the `words.forEach((word, idx) => ...)` accumulation:
add `1 / (idx + 1)` to the hash bucket of `word`. -/
def embStep (emb : List ℚ) (p : Nat × List Char) : List ℚ :=
  updateAdd emb (bucketOf p.2) (1 / ((p.1 : ℚ) + 1))

/-- The un-normalized embedding: tokenize the lower-cased text on
whitespace, and for the token at position `idx` add `1 / (idx + 1)` to its
hash bucket, starting from the 128-element zero array. -/
def rawEmbedding (t : List Char) : List ℚ :=
  let words := splitWs (t.map Char.toLower)
  words.enum.foldl embStep (List.replicate 128 0)

def sumSq (v : List ℚ) : ℚ :=
  (v.map fun x => x * x).sum

/-- `generateEmbedding`: the raw bucket array divided by its magnitude
(`sqrt` of the sum of squares) when the magnitude is positive,
componentwise `0` otherwise. -/
noncomputable def generateEmbedding (t : List Char) : List ℝ :=
  (rawEmbedding t).map fun (v : ℚ) =>
    if 0 < Real.sqrt ((sumSq (rawEmbedding t) : ℚ) : ℝ) then
      (v : ℝ) / Real.sqrt ((sumSq (rawEmbedding t) : ℚ) : ℝ)
    else 0

/-! ### `cosineSimilarity` (src/services/storage.ts, lines 291-305) -/

noncomputable def dotProd (a b : List ℝ) : ℝ :=
  ((a.zip b).map fun p => p.1 * p.2).sum

/-- `cosineSimilarity`: `0` on a length mismatch, otherwise
`dot / (sqrt(normA) * sqrt(normB))`.  Note that in Lean's reals division by
zero yields `0`; the source's floats yield `NaN` there, which is tracked
separately by `cosineSimilarityIsNaN`. -/
noncomputable def cosineSimilarity (a b : List ℝ) : ℝ :=
  if a.length ≠ b.length then 0
  else dotProd a b / (Real.sqrt (dotProd a a) * Real.sqrt (dotProd b b))

/-- Exactly when the source's return expression is the float division
`0 / 0`, i.e. `NaN`: equal lengths (so the early return is not taken), zero
denominator and zero numerator. -/
def cosineSimilarityIsNaN (a b : List ℝ) : Prop :=
  a.length = b.length ∧ dotProd a b = 0 ∧
    Real.sqrt (dotProd a a) * Real.sqrt (dotProd b b) = 0

/-! ### `retrieveRelevantChunks` (src/services/storage.ts, lines 336-355) -/

structure DocumentChunk where
  id : String
  content : List Char
  fileName : String
  chunkIndex : Nat
  embedding : Option (List ℝ)

/-- The embedding a chunk is scored with: the cached one when present,
`generateEmbedding(chunk.content)` otherwise (the source lazily fills
`chunk.embedding` with exactly this value; we model the cache as a
side-value instead of a mutation). -/
noncomputable def chunkEmbedding (c : DocumentChunk) : List ℝ :=
  match c.embedding with
  | some e => e
  | none => generateEmbedding c.content

noncomputable def scoreOf (query : List Char) (c : DocumentChunk) : ℝ :=
  cosineSimilarity (generateEmbedding query) (chunkEmbedding c)

/-- The ordering `scoredChunks.sort((a, b) => b.similarity - a.similarity)`
sorts by: `a` may precede `b` iff `b.similarity ≤ a.similarity`.  Array sort
with a consistent comparator is stable (ES2019), and a stable sort's output
is unique, so insertion sort below is a faithful model. -/
def pairGe (p q : DocumentChunk × ℝ) : Prop :=
  q.2 ≤ p.2

noncomputable instance : DecidableRel pairGe :=
  fun p q => Real.decidableLE q.2 p.2

instance : IsTotal (DocumentChunk × ℝ) pairGe :=
  ⟨fun a b => le_total b.2 a.2⟩

instance : IsTrans (DocumentChunk × ℝ) pairGe :=
  ⟨fun _ _ _ h1 h2 => le_trans h2 h1⟩

/-- `retrieveRelevantChunks(query, chunks, topK)`: score every chunk
against the embedded query, sort by similarity descending (stable), keep
the first `topK`, return the chunks. -/
noncomputable def retrieveRelevantChunks (query : List Char)
    (chunks : List DocumentChunk) (topK : Nat) : List DocumentChunk :=
  let scored := chunks.map fun c => (c, scoreOf query c)
  ((List.insertionSort pairGe scored).take topK).map Prod.fst

/-! ### `trackModelUsage` (src/services/storage.ts, lines 127-161) -/

structure Pricing where
  prompt : ℚ
  completion : ℚ
deriving DecidableEq

structure ModelUsage where
  modelId : String
  requestCount : Int
  totalTokens : Int
  totalPromptTokens : Int
  totalCompletionTokens : Int
  lastUsed : Int
  pricing : Option Pricing
deriving DecidableEq

/-- The mutation applied to an existing record: `requestCount += 1`, token
totals added (prompt/completion only when the argument was passed),
`lastUsed` refreshed, `pricing` overwritten only when supplied. -/
def applyUsage (u : ModelUsage) (tokens : Int) (promptTokens completionTokens : Option Int)
    (pricing : Option Pricing) (now : Int) : ModelUsage :=
  { u with
    requestCount := u.requestCount + 1
    totalTokens := u.totalTokens + tokens
    totalPromptTokens :=
      match promptTokens with
      | some p => u.totalPromptTokens + p
      | none => u.totalPromptTokens
    totalCompletionTokens :=
      match completionTokens with
      | some c => u.totalCompletionTokens + c
      | none => u.totalCompletionTokens
    lastUsed := now
    pricing :=
      match pricing with
      | some pr => some pr
      | none => u.pricing }

/-- The record pushed when the model has no entry yet (`promptTokens || 0`
is `getD 0`: `undefined` and `0` both give `0`). -/
def freshUsage (modelId : String) (tokens : Int) (promptTokens completionTokens : Option Int)
    (pricing : Option Pricing) (now : Int) : ModelUsage :=
  ⟨modelId, 1, tokens, promptTokens.getD 0, completionTokens.getD 0, now, pricing⟩

/-- `trackModelUsage`: find the first record with this `modelId` and mutate
it in place, else push a fresh record at the end. -/
def trackModelUsage (table : List ModelUsage) (modelId : String) (tokens : Int)
    (promptTokens completionTokens : Option Int) (pricing : Option Pricing) (now : Int) :
    List ModelUsage :=
  match table with
  | [] => [freshUsage modelId tokens promptTokens completionTokens pricing now]
  | u :: rest =>
    if u.modelId = modelId then
      applyUsage u tokens promptTokens completionTokens pricing now :: rest
    else
      u :: trackModelUsage rest modelId tokens promptTokens completionTokens pricing now

/-- `getModelUsage`: `usage.find(u => u.modelId === modelId)`. -/
def getModelUsage (table : List ModelUsage) (modelId : String) : Option ModelUsage :=
  table.find? fun u => u.modelId == modelId

/-! ### JSON values and the model of `JSON.parse` -/

inductive JsonVal where
  | null : JsonVal
  | jbool : Bool → JsonVal
  | num : Int → JsonVal
  | str : String → JsonVal
  | arr : List JsonVal → JsonVal
  | obj : List (String × JsonVal) → JsonVal

def skipWsJ (cs : List Char) : List Char :=
  cs.dropWhile isWsChar

def escChar (c : Char) : Option Char :=
  if c = '"' then some '"'
  else if c = '\\' then some '\\'
  else if c = '/' then some '/'
  else if c = 'n' then some '\n'
  else if c = 't' then some '\t'
  else if c = 'r' then some '\r'
  else if c = 'b' then some (Char.ofNat 8)
  else if c = 'f' then some (Char.ofNat 12)
  else none

/-- Body of a JSON string after the opening quote (`\uXXXX` escapes are not
modelled; no frame in scope uses them). -/
def parseStrBody : (acc : List Char) → List Char → Option (String × List Char)
  | _, [] => none
  | acc, '\\' :: c :: rest =>
    match escChar c with
    | some e => parseStrBody (e :: acc) rest
    | none => none
  | _, ['\\'] => none
  | acc, c :: rest =>
    if c = '"' then some (⟨acc.reverse⟩, rest) else parseStrBody (c :: acc) rest

def parseDigits (acc : Int) : List Char → Int × List Char
  | [] => (acc, [])
  | c :: rest =>
    if c.isDigit then parseDigits (acc * 10 + ((c.toNat : Int) - 48)) rest
    else (acc, c :: rest)

/-- Integer numerals (the only numerals the protocol's frames carry;
fractions or exponents would leave a stray `.`/`e` behind and fail the
whole parse). -/
def parseNum : List Char → Option (Int × List Char)
  | '-' :: c :: rest =>
    if c.isDigit then
      let p := parseDigits ((c.toNat : Int) - 48) rest
      some (-p.1, p.2)
    else none
  | c :: rest =>
    if c.isDigit then
      let p := parseDigits ((c.toNat : Int) - 48) rest
      some (p.1, p.2)
    else none
  | [] => none

mutual

def parseVal : Nat → List Char → Option (JsonVal × List Char)
  | 0, _ => none
  | fuel + 1, cs =>
    match skipWsJ cs with
    | 'n' :: 'u' :: 'l' :: 'l' :: rest => some (.null, rest)
    | 't' :: 'r' :: 'u' :: 'e' :: rest => some (.jbool true, rest)
    | 'f' :: 'a' :: 'l' :: 's' :: 'e' :: rest => some (.jbool false, rest)
    | '"' :: rest => (parseStrBody [] rest).map fun p => (.str p.1, p.2)
    | '[' :: rest =>
      (match skipWsJ rest with
       | ']' :: r2 => some (.arr [], r2)
       | _ => (parseElems fuel rest).map fun p => (.arr p.1, p.2))
    | '\x7b' :: rest =>
      (match skipWsJ rest with
       | '\x7d' :: r2 => some (.obj [], r2)
       | _ => (parseFields fuel rest).map fun p => (.obj p.1, p.2))
    | cs2 => (parseNum cs2).map fun p => (.num p.1, p.2)

def parseElems : Nat → List Char → Option (List JsonVal × List Char)
  | 0, _ => none
  | fuel + 1, cs => do
    let p ← parseVal fuel cs
    match skipWsJ p.2 with
    | ',' :: r2 => (parseElems fuel r2).map fun q => (p.1 :: q.1, q.2)
    | ']' :: r2 => some ([p.1], r2)
    | _ => none

def parseFields : Nat → List Char → Option (List (String × JsonVal) × List Char)
  | 0, _ => none
  | fuel + 1, cs =>
    match skipWsJ cs with
    | '"' :: rest => do
      let k ← parseStrBody [] rest
      match skipWsJ k.2 with
      | ':' :: r2 => do
        let v ← parseVal fuel r2
        match skipWsJ v.2 with
        | ',' :: r4 => (parseFields fuel r4).map fun q => ((k.1, v.1) :: q.1, q.2)
        | '\x7d' :: r4 => some ([(k.1, v.1)], r4)
        | _ => none
      | _ => none
    | _ => none

end

/-- `JSON.parse` on a payload: parse one value, reject trailing garbage. -/
def jsonParse (cs : List Char) : Option JsonVal :=
  match parseVal (cs.length + 1) cs with
  | some (v, rest) => if skipWsJ rest = [] then some v else none
  | none => none

/-- Object member access on parsed values; duplicate keys resolve to the
last occurrence, as in `JSON.parse`. -/
def lookupField (fs : List (String × JsonVal)) (k : String) : Option JsonVal :=
  (fs.reverse.find? fun p => p.1 == k).map fun p => p.2

/-- JavaScript truthiness of a parsed JSON value. -/
def jsTruthy : JsonVal → Bool
  | .null => false
  | .jbool b => b
  | .num n => n != 0
  | .str s => s != ""
  | .arr _ => true
  | .obj _ => true

/-- `x?.k` (and plain `.k` on parsed data): `undefined` on anything that is
not an object with the key. -/
def jsGetOpt : Option JsonVal → String → Option JsonVal
  | some (.obj fs), k => lookupField fs k
  | _, _ => none

/-- `x[0]` where `x` came from `chunk.choices`: indexing `undefined` or
`null` throws a `TypeError` (caught by the frame-level `try`), an array
yields its head or `undefined`, an object looks up key `"0"`, and any other
primitive yields `undefined`. -/
def jsIndexZero : Option JsonVal → Except Unit (Option JsonVal)
  | none => .error ()
  | some .null => .error ()
  | some (.arr l) => .ok l.head?
  | some (.obj fs) => .ok (lookupField fs "0")
  | some _ => .ok none

/-- `chunk.choices[0]?.delta?.content`; `.error` when the index access
throws (which skips the rest of the frame's handling). -/
def deltaContent (v : JsonVal) : Except Unit (Option JsonVal) := do
  let c0 ← jsIndexZero (jsGetOpt (some v) "choices")
  pure (jsGetOpt (jsGetOpt c0 "delta") "content")

/-- The orchestrator's reading of a usage object:
`usage.prompt_tokens || 0` etc. (src/unnamed/part_003, `onComplete`). -/
def jsNumOrZero : Option JsonVal → Int
  | some (.num n) => n
  | _ => 0

def usageNums (u : JsonVal) : Int × Int × Int :=
  (jsNumOrZero (jsGetOpt (some u) "prompt_tokens"),
   jsNumOrZero (jsGetOpt (some u) "completion_tokens"),
   jsNumOrZero (jsGetOpt (some u) "total_tokens"))

/-! ### `chatWithOpenRouterStream` (src/services/openrouter.ts, lines 183-303)

The decoder after a successful open: reads arrive as strings (the
`TextDecoder` handles byte-level splits), a carry-over `buffer` holds the
final partial line of each read, complete lines are processed in order, and
the loop stops at the `[DONE]` sentinel, at end-of-stream, or when a read
rejects (transport error or abort).  Callback invocations are recorded as
an event list; `releaseLock()` runs in `finally` on every path.
-/

inductive Ev where
  | chunk : JsonVal → Ev
  | complete : JsonVal → Ev
  | errorEv : Bool → Ev

structure DecState where
  buffer : List Char
  finalUsage : Option JsonVal
  seenDone : Bool
  events : List Ev

def initState : DecState :=
  ⟨[], none, false, []⟩

/-- Processing of one complete line inside the read loop. -/
def processLine (st : DecState) (line : List Char) : DecState :=
  if line.all isWsChar then st
  else if line.head? = some ':' then st
  else if "data: ".toList.isPrefixOf line then
    let data := line.drop 6
    if data = "[DONE]".toList then { st with seenDone := true }
    else
      match jsonParse data with
      | none => st
      | some chunkv =>
        match deltaContent chunkv with
        | .error _ => st
        | .ok cd =>
          let st1 :=
            match cd with
            | some dv =>
              if jsTruthy dv then { st with events := st.events ++ [Ev.chunk dv] } else st
            | none => st
          match jsGetOpt (some chunkv) "usage" with
          | some u => if jsTruthy u then { st1 with finalUsage := some u } else st1
          | none => st1
  else st

/-- The `for (const line of lines)` loop: `break` on the `[DONE]` sentinel
discards the rest of this read's lines. -/
def processLineList (st : DecState) : List (List Char) → DecState
  | [] => st
  | l :: ls =>
    let st1 := processLine st l
    if st1.seenDone then st1 else processLineList st1 ls

/-- `buffer.split('\n')`. -/
def splitNl : List Char → List (List Char)
  | [] => [[]]
  | c :: cs =>
    if c = '\n' then [] :: splitNl cs
    else
      match splitNl cs with
      | [] => [[c]]
      | seg :: rest => (c :: seg) :: rest

/-- One iteration of the read loop with a delivered string `r`:
`buffer += r`, split on newlines, pop the final partial segment back into
`buffer`, process the complete lines. -/
def processRead (st : DecState) (r : List Char) : DecState :=
  let segs := splitNl (st.buffer ++ r)
  processLineList { st with buffer := segs.getLastD [] } segs.dropLast

/-- A character-granular reference machine for the same decoder, used to
prove that the decoding is independent of how the stream is split into
reads: a newline completes the buffered line, any other character is
appended to the buffer, and the machine absorbs everything once the
sentinel was seen. -/
def stepChar (st : DecState) (c : Char) : DecState :=
  if st.seenDone then st
  else if c = '\n' then processLine { st with buffer := [] } st.buffer
  else { st with buffer := st.buffer ++ [c] }

def charRun (st : DecState) (s : List Char) : DecState :=
  s.foldl stepChar st

/-- The read loop over the list of delivered strings; the Bool is whether
the loop exited via the sentinel (before attempting the next read). -/
def runReads (st : DecState) : List (List Char) → DecState × Bool
  | [] => (st, false)
  | r :: rs =>
    let st1 := processRead st r
    if st1.seenDone then (st1, true) else runReads st1 rs

/-- The handler for a leftover partial line after the loop (lines 274-286):
only a usage object is extracted from it, never content. -/
def processLeftover (st : DecState) : DecState :=
  if (!st.buffer.all isWsChar) && "data: ".toList.isPrefixOf st.buffer then
    let data := st.buffer.drop 6
    if data = "[DONE]".toList then st
    else
      match jsonParse data with
      | some chunkv =>
        match jsGetOpt (some chunkv) "usage" with
        | some u => if jsTruthy u then { st with finalUsage := some u } else st
        | none => st
      | none => st
  else st

def zeroUsage : JsonVal :=
  .obj [("prompt_tokens", .num 0), ("completion_tokens", .num 0), ("total_tokens", .num 0)]

/-- The completion path: leftover-buffer handling, then `onComplete` with
the captured usage, or with the zero-usage object when none was seen. -/
def finishSuccess (st : DecState) : DecState :=
  let st1 := processLeftover st
  match st1.finalUsage with
  | some u => { st1 with events := st1.events ++ [Ev.complete u] }
  | none => { st1 with events := st1.events ++ [Ev.complete zeroUsage] }

/-- What the read after the delivered ones does: `closed` is `done: true`
(normal end of stream), `errored abort` is a rejected read — `abort = true`
when the rejection is the cancellation (`AbortError`). -/
inductive StreamEnd where
  | closed : StreamEnd
  | errored : Bool → StreamEnd

/-- The decoder: the emitted events and the number of `releaseLock()`
calls (the `finally` block, hence `1` on every path).  On a rejected read
the `catch` block invokes `onError` and re-throws: no completion event. -/
def chatWithOpenRouterStream (reads : List (List Char)) (ending : StreamEnd) :
    List Ev × Nat :=
  let p := runReads initState reads
  if p.2 then ((finishSuccess p.1).events, 1)
  else
    match ending with
    | .closed => ((finishSuccess p.1).events, 1)
    | .errored abort => (p.1.events ++ [Ev.errorEv abort], 1)

/-- The orchestrator's `onError` (src/unnamed/part_003, lines 304-318):
error text is written into the assistant message iff the error is not the
cancellation (`error.name !== 'AbortError'`). -/
def errorShowsMessage (abort : Bool) : Bool :=
  !abort

def isTerminalEv : Ev → Bool
  | .chunk _ => false
  | .complete _ => true
  | .errorEv _ => true

/-! ### Context assembly (src/unnamed/part_003, `executeCompletion`, lines 144-258) -/

inductive Role where
  | user : Role
  | assistant : Role
  | system : Role
deriving DecidableEq

structure ChatMessage where
  id : String
  role : Role
  content : List Char
  timestamp : Int
deriving DecidableEq

structure Memory where
  id : String
  title : List Char
  content : List Char
deriving DecidableEq

structure ORMessage where
  role : Role
  content : List Char
deriving DecidableEq

/-- `array.join(sep)`. -/
def joinSep (sep : List Char) (l : List (List Char)) : List Char :=
  (l.intersperse sep).flatten

/-- The selected-memories system message: present when memory ids are
selected and the joined `"Memory: <title>\n<content>"` text is nonempty. -/
def memoryBlock (memories : List Memory) (selectedMemories : List String) :
    Option (List Char) :=
  if selectedMemories.isEmpty then none
  else
    let texts := (memories.filter fun m => selectedMemories.contains m.id).map
      fun m => "Memory: ".toList ++ m.title ++ '\n' :: m.content
    let selectedMemoryTexts := joinSep "\n\n".toList texts
    if selectedMemoryTexts.isEmpty then none
    else some ("Relevant memories:\n".toList ++ selectedMemoryTexts)

/-- The retrieved-documents system message: present when documents are
selected, some chunks belong to them, and the joined
`"[From <fileName>]: <content>"` context is nonempty; retrieval runs with
`topK = 5` against exactly the selected documents' chunks. -/
noncomputable def ragBlock (allDocuments : List DocumentChunk)
    (selectedDocuments : List String) (userContent : List Char) :
    Option (List Char) :=
  if selectedDocuments.isEmpty then none
  else
    let selectedDocs := allDocuments.filter fun d => selectedDocuments.contains d.fileName
    if selectedDocs.isEmpty then none
    else
      let relevantChunks := retrieveRelevantChunks userContent selectedDocs 5
      let ragContext := joinSep "\n\n".toList
        (relevantChunks.map fun c => "[From ".toList ++ c.fileName.toList ++ "]: ".toList ++ c.content)
      if ragContext.isEmpty then none
      else some ("Relevant document excerpts:\n".toList ++ ragContext)

/-- `historyMessages.slice(-maxMessages)`; JS `slice(-0)` is `slice(0)`,
the whole array. -/
def takeLastJs (l : List ChatMessage) (n : Nat) : List ChatMessage :=
  if n = 0 then l else l.drop (l.length - n)

/-- The outgoing message sequence `executeCompletion` builds: optional
system prompt (skipped when `trim()` is empty), optional memory block,
optional retrieval block, the last `maxMessages` history messages with
role and content carried over, and — on a fresh send only — the new user
message. -/
noncomputable def executeCompletionMessages (systemPrompt : List Char)
    (memories : List Memory) (selectedMemories : List String)
    (allDocuments : List DocumentChunk) (selectedDocuments : List String)
    (historyMessages : List ChatMessage) (maxMessages : Nat)
    (userContent : List Char) (isRerun : Bool) : List ORMessage :=
  let sysPart : List ORMessage :=
    if systemPrompt.all isWsChar then [] else [⟨Role.system, systemPrompt⟩]
  let memPart : List ORMessage :=
    match memoryBlock memories selectedMemories with
    | some c => [⟨Role.system, c⟩]
    | none => []
  let ragPart : List ORMessage :=
    match ragBlock allDocuments selectedDocuments userContent with
    | some c => [⟨Role.system, c⟩]
    | none => []
  let conversationMessages : List ORMessage :=
    (takeLastJs historyMessages maxMessages).map fun m => ⟨m.role, m.content⟩
  let contextMessages := sysPart ++ memPart ++ ragPart
  if isRerun then contextMessages ++ conversationMessages
  else contextMessages ++ conversationMessages ++ [⟨Role.user, userContent⟩]

/-! ### Concrete stream inputs for the decoding claims -/

/-- The four-frame stream of the specification's decode test, with the wire
protocol's usage field names (`prompt_tokens`, `completion_tokens`,
`total_tokens`) as produced by the endpoint and consumed by the source. -/
def streamInput : List Char :=
  ("data: \x7b\"choices\":[\x7b\"delta\":\x7b\"content\":\"Hel\"\x7d\x7d]\x7d\n" ++
   "data: \x7b\"choices\":[\x7b\"delta\":\x7b\"content\":\"lo\"\x7d\x7d]\x7d\n" ++
   "data: \x7b\"choices\":[\x7b\"delta\":\x7b\x7d\x7d],\"usage\":\x7b\"prompt_tokens\":5,\"completion_tokens\":2,\"total_tokens\":7\x7d\x7d\n" ++
   "data: [DONE]\n").toList

/-- The same four frames verbatim as written in the claim, i.e. with the
specification's abstract camel-case usage field names. -/
def streamInputCamel : List Char :=
  ("data: \x7b\"choices\":[\x7b\"delta\":\x7b\"content\":\"Hel\"\x7d\x7d]\x7d\n" ++
   "data: \x7b\"choices\":[\x7b\"delta\":\x7b\"content\":\"lo\"\x7d\x7d]\x7d\n" ++
   "data: \x7b\"choices\":[\x7b\"delta\":\x7b\x7d\x7d],\"usage\":\x7b\"promptTokens\":5,\"completionTokens\":2,\"totalTokens\":7\x7d\x7d\n" ++
   "data: [DONE]\n").toList

/-- The usage object of `streamInput`'s third frame as parsed. -/
def usageJsonSnake : JsonVal :=
  .obj [("prompt_tokens", .num 5), ("completion_tokens", .num 2), ("total_tokens", .num 7)]

/-- The usage object of `streamInputCamel`'s third frame as parsed. -/
def usageJsonCamel : JsonVal :=
  .obj [("promptTokens", .num 5), ("completionTokens", .num 2), ("totalTokens", .num 7)]

/-- A `data: ` line whose payload is neither the sentinel nor valid JSON. -/
def badLine : List Char :=
  "data: \x7bnot json".toList

/-- The four lines of `streamInput`, without their terminating newlines. -/
def lineFrame1 : List Char :=
  "data: \x7b\"choices\":[\x7b\"delta\":\x7b\"content\":\"Hel\"\x7d\x7d]\x7d".toList

def lineFrame2 : List Char :=
  "data: \x7b\"choices\":[\x7b\"delta\":\x7b\"content\":\"lo\"\x7d\x7d]\x7d".toList

def lineFrame3 : List Char :=
  "data: \x7b\"choices\":[\x7b\"delta\":\x7b\x7d\x7d],\"usage\":\x7b\"prompt_tokens\":5,\"completion_tokens\":2,\"total_tokens\":7\x7d\x7d".toList

def lineFrame4 : List Char :=
  "data: [DONE]".toList

/-! ## Theorems -/

/-! ### The chunking loop (claims C4, C5) -/

/-- The loop of `chunkText` never exits once entered, for any positive
`overlap`: each iteration sets `start := min (start + chunkSize) length - overlap`,
which stays strictly below `length`. -/
theorem chunkTextLoop_eq_none (text : List Char) (chunkSize overlap : Int)
    (hov : 0 < overlap) :
    ∀ (fuel : Nat) (start : Int) (chunks : List (List Char)),
      start < (text.length : Int) →
      chunkTextLoop text chunkSize overlap fuel start chunks = none := by
  intro fuel
  induction fuel with
  | zero => intro start chunks _; rfl
  | succ n ih =>
    intro start chunks hstart
    rw [chunkTextLoop, if_pos hstart]
    apply ih
    have h1 : min (start + chunkSize) (text.length : Int) ≤ (text.length : Int) :=
      min_le_right _ _
    omega

theorem chunkText_eq_none (text : List Char) (chunkSize overlap : Int)
    (hov : 0 < overlap) (htext : text ≠ []) (fuel : Nat) :
    chunkText text chunkSize overlap fuel = none := by
  apply chunkTextLoop_eq_none text chunkSize overlap hov fuel 0 []
  have : 0 < text.length := List.length_pos.mpr htext
  exact_mod_cast this

/-- Claim C4: `chunk(text, size, overlap)` is claimed to return
`ceil((L-overlap)/(size-overlap))` chunks with pairwise overlaps of exactly
`overlap` characters.  The code cannot return anything: at the failing
input below (L = 1500, size = 1000, overlap = 200, where the claim predicts
`ceil(1300/800) = 2` chunks) the `while` loop never terminates — once
`end` reaches `text.length`, `start = end - overlap` stays below
`text.length` forever, so no iteration budget suffices. -/
theorem c4_chunk_count_loop_never_returns :
    ∀ fuel : Nat, chunkText (List.replicate 1500 'a') 1000 200 fuel = none := by
  intro fuel
  apply chunkText_eq_none _ _ _ (by norm_num) ?_ fuel
  apply List.ne_nil_of_length_pos
  rw [List.length_replicate]
  norm_num

/-- Claim C5: the chunking loop is claimed to terminate whenever
`0 < overlap < size`.  In the code it never terminates for any nonempty
text and positive overlap (the `overlap < size` guard is irrelevant): the
next `start` is always `min (start + size) L - overlap < L`. -/
theorem c5_chunk_loop_diverges (text : List Char) (chunkSize overlap : Int)
    (hov : 0 < overlap) (hsize : overlap < chunkSize) (htext : text ≠ []) :
    ∀ fuel : Nat, chunkText text chunkSize overlap fuel = none :=
  fun fuel => chunkText_eq_none text chunkSize overlap hov htext fuel

theorem c5_chunk_loop_diverges_witness :
    (0 : Int) < 200 ∧ (200 : Int) < 1000 ∧ "abc".toList ≠ [] ∧
      chunkText "abc".toList 1000 200 5 = none := by
  refine ⟨by norm_num, by norm_num, by decide, ?_⟩
  exact c5_chunk_loop_diverges "abc".toList 1000 200 (by norm_num) (by norm_num) (by decide) 5

/-! ### Usage accounting (claim C9) -/

/-- Claim C9: replaying `record` with identical arguments doubles
`requestCount` and all token totals (accumulation, not idempotence), and
the stored pricing is overwritten exactly when a pricing value is
supplied. -/
theorem c9_track_model_usage_replay_doubles (modelId : String) (tokens : Int)
    (pt ct : Option Int) (pr : Option Pricing) (t1 t2 : Int) :
    (∃ r1 r2,
      getModelUsage (trackModelUsage [] modelId tokens pt ct pr t1) modelId = some r1 ∧
      getModelUsage
        (trackModelUsage (trackModelUsage [] modelId tokens pt ct pr t1)
          modelId tokens pt ct pr t2) modelId = some r2 ∧
      r1.requestCount = 1 ∧
      r2.requestCount = 2 * r1.requestCount ∧
      r2.totalTokens = 2 * r1.totalTokens ∧
      r2.totalPromptTokens = 2 * r1.totalPromptTokens ∧
      r2.totalCompletionTokens = 2 * r1.totalCompletionTokens ∧
      r2.pricing = (match pr with | some p => some p | none => r1.pricing)) ∧
    (∀ u : ModelUsage, (applyUsage u tokens pt ct none t2).pricing = u.pricing) ∧
    (∀ (u : ModelUsage) (p : Pricing), (applyUsage u tokens pt ct (some p) t2).pricing = some p) := by
  refine ⟨⟨freshUsage modelId tokens pt ct pr t1,
          applyUsage (freshUsage modelId tokens pt ct pr t1) tokens pt ct pr t2,
          ?_, ?_, ?_, ?_, ?_, ?_, ?_, ?_⟩, ?_, ?_⟩
  · simp [trackModelUsage, getModelUsage, freshUsage]
  · simp [trackModelUsage, getModelUsage, freshUsage, applyUsage]
  · rfl
  · rfl
  · simp [applyUsage, freshUsage]; ring
  · cases pt <;> simp [applyUsage, freshUsage] <;> ring
  · cases ct <;> simp [applyUsage, freshUsage] <;> ring
  · cases pr <;> simp [applyUsage, freshUsage]
  · intro u; rfl
  · intro u p; rfl

/-! ### Cosine similarity (claim C10) -/

theorem dotProd_nil_left (b : List ℝ) : dotProd [] b = 0 := rfl

theorem dotProd_nil_right (a : List ℝ) : dotProd a [] = 0 := by
  cases a <;> rfl

theorem dotProd_cons (x y : ℝ) (a b : List ℝ) :
    dotProd (x :: a) (y :: b) = x * y + dotProd a b := by
  simp [dotProd]

theorem dotProd_self_eq (a : List ℝ) : dotProd a a = (a.map fun x => x * x).sum := by
  induction a with
  | nil => rfl
  | cons x a ih => rw [dotProd_cons, ih]; simp

theorem dotProd_self_nonneg (a : List ℝ) : 0 ≤ dotProd a a := by
  rw [dotProd_self_eq]
  apply List.sum_nonneg
  intro x hx
  obtain ⟨y, _, rfl⟩ := List.mem_map.mp hx
  exact mul_self_nonneg y

theorem dotProd_self_pos (a : List ℝ) (ha : ¬ ∀ x ∈ a, x = 0) : 0 < dotProd a a := by
  push_neg at ha
  obtain ⟨x, hx, hxne⟩ := ha
  rw [dotProd_self_eq]
  have hmem : x * x ∈ a.map fun y => y * y := List.mem_map.mpr ⟨x, hx, rfl⟩
  have hle : x * x ≤ (a.map fun y => y * y).sum := by
    apply List.single_le_sum _ _ hmem
    intro y hy
    obtain ⟨z, _, rfl⟩ := List.mem_map.mp hy
    exact mul_self_nonneg z
  have hxx : 0 < x * x := mul_self_pos.mpr hxne
  exact lt_of_lt_of_le hxx hle

/-- Cauchy-Schwarz for the list dot product, squared form. -/
theorem dotProd_sq_le (a : List ℝ) : ∀ b : List ℝ,
    dotProd a b ^ 2 ≤ dotProd a a * dotProd b b := by
  induction a with
  | nil =>
    intro b
    rw [dotProd_nil_left]
    have := dotProd_self_nonneg b
    nlinarith [dotProd_self_nonneg ([] : List ℝ)]
  | cons x a ih =>
    intro b
    cases b with
    | nil =>
      rw [dotProd_nil_right]
      nlinarith [dotProd_self_nonneg (x :: a), dotProd_self_nonneg ([] : List ℝ)]
    | cons y b =>
      have hS := ih b
      have hA := dotProd_self_nonneg a
      have hB := dotProd_self_nonneg b
      rw [dotProd_cons, dotProd_cons, dotProd_cons]
      set S := dotProd a b with hSdef
      set A := dotProd a a with hAdef
      set B := dotProd b b with hBdef
      rcases eq_or_lt_of_le hA with hA0 | hApos
      · have hS0 : S = 0 := by nlinarith [sq_nonneg S]
        rw [hS0, ← hA0]
        nlinarith [mul_nonneg (mul_self_nonneg x) hB]
      · nlinarith [sq_nonneg (S * x - A * y),
          mul_nonneg (sub_nonneg.mpr hS) (add_nonneg (sq_nonneg x) hA)]

theorem dotProd_zero_of_left (a b : List ℝ) (ha : ∀ x ∈ a, x = 0) : dotProd a b = 0 := by
  apply List.sum_eq_zero
  intro t ht
  obtain ⟨⟨p1, p2⟩, hp, rfl⟩ := List.mem_map.mp ht
  have h1 : p1 ∈ a := (List.of_mem_zip hp).1
  rw [ha p1 h1, zero_mul]

theorem dotProd_zero_of_right (a b : List ℝ) (hb : ∀ x ∈ b, x = 0) : dotProd a b = 0 := by
  apply List.sum_eq_zero
  intro t ht
  obtain ⟨⟨p1, p2⟩, hp, rfl⟩ := List.mem_map.mp ht
  have h2 : p2 ∈ b := (List.of_mem_zip hp).2
  rw [hb p2 h2, mul_zero]

/-- Claim C10: with equal lengths and at least one all-zero vector, the
source's return expression is the float division `0 / 0`, i.e. `NaN`; the
`[-1, 1]` range is guaranteed whenever both vectors are nonzero; unequal
lengths return `0`. -/
theorem c10_cosine_similarity_nan_and_bounds (a b : List ℝ) :
    (a.length = b.length → ((∀ x ∈ a, x = 0) ∨ (∀ x ∈ b, x = 0)) →
        cosineSimilarityIsNaN a b) ∧
    (a.length = b.length → (¬ ∀ x ∈ a, x = 0) → (¬ ∀ x ∈ b, x = 0) →
        cosineSimilarity a b ∈ Set.Icc (-1 : ℝ) 1) ∧
    (a.length ≠ b.length → cosineSimilarity a b = 0) := by
  refine ⟨?_, ?_, ?_⟩
  · intro hlen hzero
    refine ⟨hlen, ?_, ?_⟩
    · rcases hzero with ha | hb
      · exact dotProd_zero_of_left a b ha
      · exact dotProd_zero_of_right a b hb
    · rcases hzero with ha | hb
      · have : dotProd a a = 0 := dotProd_zero_of_left a a ha
        rw [this, Real.sqrt_zero, zero_mul]
      · have : dotProd b b = 0 := dotProd_zero_of_left b b hb
        rw [this, Real.sqrt_zero, mul_zero]
  · intro hlen ha hb
    have hA : 0 < dotProd a a := dotProd_self_pos a ha
    have hB : 0 < dotProd b b := dotProd_self_pos b hb
    have hden : 0 < Real.sqrt (dotProd a a) * Real.sqrt (dotProd b b) :=
      mul_pos (Real.sqrt_pos.mpr hA) (Real.sqrt_pos.mpr hB)
    have hsq : dotProd a b ^ 2 ≤ (Real.sqrt (dotProd a a) * Real.sqrt (dotProd b b)) ^ 2 := by
      rw [mul_pow, Real.sq_sqrt hA.le, Real.sq_sqrt hB.le]
      exact dotProd_sq_le a b
    have habs : |dotProd a b| ≤ Real.sqrt (dotProd a a) * Real.sqrt (dotProd b b) := by
      have := Real.sqrt_le_sqrt hsq
      rwa [Real.sqrt_sq_eq_abs, Real.sqrt_sq hden.le] at this
    have hcos : cosineSimilarity a b =
        dotProd a b / (Real.sqrt (dotProd a a) * Real.sqrt (dotProd b b)) := by
      simp [cosineSimilarity, hlen]
    rw [hcos, Set.mem_Icc, ← abs_le, abs_div, abs_of_pos hden]
    exact (div_le_one hden).mpr habs
  · intro hlen
    simp [cosineSimilarity, hlen]

theorem c10_cosine_similarity_nan_and_bounds_witness :
    cosineSimilarityIsNaN [(0 : ℝ)] [(0 : ℝ)] ∧
    cosineSimilarity [(1 : ℝ)] [(1 : ℝ)] ∈ Set.Icc (-1 : ℝ) 1 ∧
    cosineSimilarity [(1 : ℝ)] [(0 : ℝ), 0] = 0 :=
  ⟨(c10_cosine_similarity_nan_and_bounds [0] [0]).1 rfl (Or.inl (by simp)),
   (c10_cosine_similarity_nan_and_bounds [1] [1]).2.1 rfl (by norm_num) (by norm_num),
   (c10_cosine_similarity_nan_and_bounds [1] [0, 0]).2.2 (by norm_num)⟩


/-! ### The embedding (claim C6) -/

theorem splitWsAux_ne_nil (l acc : List Char) : splitWsAux l acc ≠ [] := by
  induction l, acc using splitWsAux.induct with
  | case1 acc => simp [splitWsAux]
  | case2 c rest acc hws ih =>
    rw [splitWsAux, if_pos hws]
    simp
  | case3 c rest acc hws ih =>
    rw [splitWsAux, if_neg hws]
    exact ih

theorem splitWs_ne_nil (l : List Char) : splitWs l ≠ [] :=
  splitWsAux_ne_nil l []

theorem updateAdd_length (v : List ℚ) (i : Nat) (x : ℚ) :
    (updateAdd v i x).length = v.length := by
  simp [updateAdd]

theorem updateAdd_sum (v : List ℚ) (i : Nat) (x : ℚ) (h : i < v.length) :
    (updateAdd v i x).sum = v.sum + x := by
  induction v generalizing i with
  | nil => simp at h
  | cons a t ih =>
    cases i with
    | zero => simp [updateAdd]; ring
    | succ i =>
      have h' : i < t.length := by simpa using h
      have : updateAdd (a :: t) (i + 1) x = a :: updateAdd t i x := by
        simp [updateAdd]
      rw [this]
      simp [ih i h']
      ring

theorem foldl_embStep_length (ps : List (Nat × List Char)) :
    ∀ emb : List ℚ, (ps.foldl embStep emb).length = emb.length := by
  induction ps with
  | nil => intro emb; rfl
  | cons p ps ih =>
    intro emb
    rw [List.foldl_cons, ih]
    simp [embStep, updateAdd_length]

theorem foldl_embStep_sum (ps : List (Nat × List Char)) :
    ∀ emb : List ℚ, emb.length = 128 →
      (ps.foldl embStep emb).sum = emb.sum + (ps.map fun p => 1 / ((p.1 : ℚ) + 1)).sum := by
  induction ps with
  | nil => intro emb _; simp
  | cons p ps ih =>
    intro emb hlen
    rw [List.foldl_cons, ih (embStep emb p) (by simp [embStep, updateAdd_length, hlen])]
    have hb : bucketOf p.2 < emb.length := by
      rw [hlen]; exact Nat.mod_lt _ (by norm_num)
    rw [List.map_cons, List.sum_cons]
    rw [embStep, updateAdd_sum _ _ _ hb]
    ring

theorem rawEmbedding_length (t : List Char) : (rawEmbedding t).length = 128 := by
  rw [rawEmbedding, foldl_embStep_length]
  simp

theorem rawEmbedding_sum (t : List Char) :
    (rawEmbedding t).sum =
      ((splitWs (t.map Char.toLower)).enum.map fun p => 1 / ((p.1 : ℚ) + 1)).sum := by
  rw [rawEmbedding, foldl_embStep_sum _ _ (by simp)]
  simp

theorem rawEmbedding_sum_pos (t : List Char) : 0 < (rawEmbedding t).sum := by
  rw [rawEmbedding_sum]
  apply List.sum_pos
  · intro x hx
    obtain ⟨p, _, rfl⟩ := List.mem_map.mp hx
    positivity
  · simp only [ne_eq, List.map_eq_nil_iff, List.enum_eq_nil]
    exact splitWs_ne_nil _

theorem sumSq_rawEmbedding_pos (t : List Char) : 0 < sumSq (rawEmbedding t) := by
  have hsum := rawEmbedding_sum_pos t
  have hex : ∃ x ∈ rawEmbedding t, x ≠ 0 := by
    by_contra hall
    push_neg at hall
    have : (rawEmbedding t).sum = 0 := List.sum_eq_zero hall
    exact absurd this (ne_of_gt hsum)
  obtain ⟨x, hx, hxne⟩ := hex
  have hmem : x * x ∈ (rawEmbedding t).map fun y => y * y := List.mem_map.mpr ⟨x, hx, rfl⟩
  have hle : x * x ≤ ((rawEmbedding t).map fun y => y * y).sum := by
    apply List.single_le_sum _ _ hmem
    intro y hy
    obtain ⟨z, _, rfl⟩ := List.mem_map.mp hy
    exact mul_self_nonneg z
  exact lt_of_lt_of_le (mul_self_pos.mpr hxne) hle

theorem sum_map_div_sq (l : List ℚ) (m : ℝ) :
    ((l.map fun v => ((v : ℚ) : ℝ) / m).map fun x => x * x).sum =
      ((sumSq l : ℚ) : ℝ) / (m * m) := by
  induction l with
  | nil => simp [sumSq]
  | cons v l ih =>
    simp only [List.map_cons, List.sum_cons, sumSq] at ih ⊢
    rw [ih, div_mul_div_comm]
    push_cast
    rw [add_div]

theorem generateEmbedding_normalized (t : List Char) :
    ((generateEmbedding t).map fun x => x * x).sum = 1 := by
  have hpos : 0 < sumSq (rawEmbedding t) := sumSq_rawEmbedding_pos t
  have hposR : (0 : ℝ) < ((sumSq (rawEmbedding t) : ℚ) : ℝ) := by exact_mod_cast hpos
  have hmag : (0 : ℝ) < Real.sqrt ((sumSq (rawEmbedding t) : ℚ) : ℝ) :=
    Real.sqrt_pos.mpr hposR
  rw [generateEmbedding]
  have hfun : (fun v : ℚ =>
      if 0 < Real.sqrt ((sumSq (rawEmbedding t) : ℚ) : ℝ) then
        (v : ℝ) / Real.sqrt ((sumSq (rawEmbedding t) : ℚ) : ℝ)
      else 0) =
      fun v : ℚ => (v : ℝ) / Real.sqrt ((sumSq (rawEmbedding t) : ℚ) : ℝ) :=
    funext fun v => if_pos hmag
  rw [hfun, sum_map_div_sq, Real.mul_self_sqrt hposR.le]
  exact div_self (ne_of_gt hposR)

theorem generateEmbedding_length (t : List Char) : (generateEmbedding t).length = 128 := by
  rw [generateEmbedding, List.length_map, rawEmbedding_length]

theorem sumSq_basis : sumSq ((1 : ℚ) :: List.replicate 127 0) = 1 := by
  simp [sumSq, List.map_replicate, List.sum_replicate]

theorem rawEmbedding_empty : rawEmbedding [] = (1 : ℚ) :: List.replicate 127 0 := by
  rw [rawEmbedding]
  rw [show List.map Char.toLower [] = [] from rfl]
  rw [show splitWs [] = [[]] from by rw [splitWs, splitWsAux]; rfl]
  rw [show ([([] : List Char)]).enum = [(0, ([] : List Char))] from rfl]
  rw [List.foldl_cons, List.foldl_nil, embStep]
  rw [show bucketOf [] = 0 from rfl]
  rw [show (1 : ℚ) / ((0 : Nat) + 1) = 1 by norm_num]
  rw [updateAdd]
  rw [show (128 : Nat) = 127 + 1 from rfl, List.replicate_succ]
  rw [List.getD_cons_zero, List.set_cons_zero]
  norm_num

theorem generateEmbedding_empty :
    generateEmbedding [] = (1 : ℝ) :: List.replicate 127 0 := by
  rw [generateEmbedding, rawEmbedding_empty, sumSq_basis]
  rw [show ((1 : ℚ) : ℝ) = 1 from by norm_num, Real.sqrt_one]
  simp [List.map_replicate]

/-- Claim C6 (amended): `embed("")` is not the zero vector — it is the unit
basis vector with `1` in bucket `0` (the tokenizer yields the single empty
token, which hashes to `0`); for every text the embedding is a 128-element
L2-normalized vector and is never the zero vector (the zero-magnitude guard
in the source is unreachable because the tokenizer always yields at least
one token). -/
theorem c6_embed_normalized_never_zero :
    generateEmbedding [] = (1 : ℝ) :: List.replicate 127 0 ∧
    ∀ t : List Char,
      (generateEmbedding t).length = 128 ∧
      ((generateEmbedding t).map fun x => x * x).sum = 1 ∧
      generateEmbedding t ≠ List.replicate 128 (0 : ℝ) := by
  refine ⟨generateEmbedding_empty, fun t => ⟨generateEmbedding_length t,
    generateEmbedding_normalized t, ?_⟩⟩
  intro h
  have h1 := generateEmbedding_normalized t
  rw [h] at h1
  simp at h1

/-- Counterexample to claim C6 as stated: `embed("")` is not the
128-element zero vector (its first component is `1`). -/
theorem c6_embed_empty_counterexample :
    generateEmbedding [] ≠ List.replicate 128 (0 : ℝ) := by
  intro h
  have h0 : (generateEmbedding []).getD 0 0 = 1 := by
    rw [generateEmbedding_empty]; rfl
  rw [h] at h0
  norm_num at h0


/-! ### Retrieval (claim C7) -/

/-- Inserting into the descending-stable order: the filtered similarity
class of the result gains `x` at the front exactly when `x` belongs to the
class (`x` is never inserted past an element of its own class). -/
theorem filter_orderedInsert_key (x : DocumentChunk × ℝ) (l : List (DocumentChunk × ℝ)) (r : ℝ) :
    (List.orderedInsert pairGe x l).filter (fun p => decide (p.2 = r)) =
      if x.2 = r then x :: l.filter (fun p => decide (p.2 = r))
      else l.filter (fun p => decide (p.2 = r)) := by
  induction l with
  | nil =>
    by_cases hx : x.2 = r <;> simp [List.orderedInsert, List.filter, hx]
  | cons y ys ih =>
    rw [List.orderedInsert]
    by_cases hxy : pairGe x y
    · rw [if_pos hxy]
      by_cases hx : x.2 = r <;> simp [List.filter_cons, hx]
    · rw [if_neg hxy]
      by_cases hy : y.2 = r
      · by_cases hx : x.2 = r
        · exact absurd (show pairGe x y from by rw [pairGe, hy, hx]) hxy
        · simp [List.filter_cons, hy, hx, ih]
      · simp [List.filter_cons, hy, ih]

/-- Stability of the sort: each similarity class appears in the sorted list
exactly as it appears in the input. -/
theorem filter_insertionSort_key (l : List (DocumentChunk × ℝ)) (r : ℝ) :
    (List.insertionSort pairGe l).filter (fun p => decide (p.2 = r)) =
      l.filter (fun p => decide (p.2 = r)) := by
  induction l with
  | nil => rfl
  | cons x l ih =>
    rw [List.insertionSort, filter_orderedInsert_key]
    by_cases hx : x.2 = r <;> simp [List.filter_cons, hx, ih]

theorem mem_sorted_scored (q : List Char) (chunks : List DocumentChunk) :
    ∀ p ∈ List.insertionSort pairGe (chunks.map fun c => (c, scoreOf q c)),
      p.1 ∈ chunks ∧ p.2 = scoreOf q p.1 := by
  intro p hp
  have hmem := (List.perm_insertionSort pairGe _).mem_iff.mp hp
  obtain ⟨c, hc, rfl⟩ := List.mem_map.mp hmem
  exact ⟨hc, rfl⟩

theorem chunkEmbedding_of_engine (c : DocumentChunk)
    (h : c.embedding = none ∨ c.embedding = some (generateEmbedding c.content)) :
    chunkEmbedding c = generateEmbedding c.content := by
  rcases h with h | h <;> simp [chunkEmbedding, h]

/-- Claim C7: `retrieve(q, chunks, k)` returns `min(k, |chunks|)` chunks,
in non-increasing order of cosine similarity between `embed(q)` and the
chunks' engine-produced embeddings, and within every similarity class the
output is an initial segment of the input's order (stable tie-breaking). -/
theorem c7_retrieve_topk (q : List Char) (chunks : List DocumentChunk) (k : Nat) (r : ℝ)
    (hemb : ∀ c ∈ chunks, c.embedding = none ∨ c.embedding = some (generateEmbedding c.content)) :
    (retrieveRelevantChunks q chunks k).length = min k chunks.length ∧
    (retrieveRelevantChunks q chunks k).Pairwise
      (fun c d => cosineSimilarity (generateEmbedding q) (generateEmbedding d.content) ≤
        cosineSimilarity (generateEmbedding q) (generateEmbedding c.content)) ∧
    (retrieveRelevantChunks q chunks k).filter (fun c => decide (scoreOf q c = r)) <+:
      chunks.filter (fun c => decide (scoreOf q c = r)) := by
  have hscore : ∀ c ∈ chunks,
      scoreOf q c = cosineSimilarity (generateEmbedding q) (generateEmbedding c.content) := by
    intro c hc
    rw [scoreOf, chunkEmbedding_of_engine c (hemb c hc)]
  refine ⟨?_, ?_, ?_⟩
  · rw [retrieveRelevantChunks, List.length_map, List.length_take,
      (List.perm_insertionSort pairGe _).length_eq, List.length_map]
  · rw [retrieveRelevantChunks]
    apply List.pairwise_map.mpr
    have hsorted : (List.insertionSort pairGe (chunks.map fun c => (c, scoreOf q c))).Pairwise
        pairGe := List.sorted_insertionSort pairGe _
    have htake := hsorted.sublist
      (List.take_sublist k (List.insertionSort pairGe (chunks.map fun c => (c, scoreOf q c))))
    apply List.Pairwise.imp_of_mem _ htake
    intro a b ha hb hab
    have ha' := mem_sorted_scored q chunks a
      ((List.take_sublist k _).subset ha)
    have hb' := mem_sorted_scored q chunks b
      ((List.take_sublist k _).subset hb)
    rw [← hscore a.1 ha'.1, ← hscore b.1 hb'.1, ← ha'.2, ← hb'.2]
    exact hab
  · rw [retrieveRelevantChunks]
    have hcong : ∀ p ∈ (List.insertionSort pairGe (chunks.map fun c => (c, scoreOf q c))).take k,
        (fun p : DocumentChunk × ℝ => decide (scoreOf q p.1 = r)) p =
        (fun p : DocumentChunk × ℝ => decide (p.2 = r)) p := by
      intro p hp
      have := (mem_sorted_scored q chunks p ((List.take_sublist k _).subset hp)).2
      simp only [this]
    calc ((List.insertionSort pairGe (chunks.map fun c => (c, scoreOf q c))).take k
            |>.map Prod.fst).filter (fun c => decide (scoreOf q c = r))
        = (((List.insertionSort pairGe (chunks.map fun c => (c, scoreOf q c))).take k).filter
            (fun p => decide (p.2 = r))).map Prod.fst := by
          rw [List.filter_map]
          exact congrArg _ (List.filter_congr hcong)
      _ <+: ((List.insertionSort pairGe (chunks.map fun c => (c, scoreOf q c))).filter
            (fun p => decide (p.2 = r))).map Prod.fst := by
          apply List.IsPrefix.map
          exact List.IsPrefix.filter _ (List.take_prefix k _)
      _ = ((chunks.map fun c => (c, scoreOf q c)).filter
            (fun p => decide (p.2 = r))).map Prod.fst := by
          rw [filter_insertionSort_key]
      _ = chunks.filter (fun c => decide (scoreOf q c = r)) := by
          rw [List.filter_map]
          rw [show ((fun p : DocumentChunk × ℝ => decide (p.2 = r)) ∘
              fun c => (c, scoreOf q c)) = fun c => decide (scoreOf q c = r) from rfl]
          rw [List.map_map]
          rw [show (Prod.fst ∘ fun c : DocumentChunk => (c, scoreOf q c)) = id from rfl,
            List.map_id]

theorem c7_retrieve_topk_witness :
    (retrieveRelevantChunks [] ([⟨"c0", [], "f", 0, none⟩] : List DocumentChunk) 1).length =
        min 1 ([⟨"c0", [], "f", 0, none⟩] : List DocumentChunk).length ∧
    (retrieveRelevantChunks [] ([⟨"c0", [], "f", 0, none⟩] : List DocumentChunk) 1).Pairwise
      (fun c d => cosineSimilarity (generateEmbedding []) (generateEmbedding d.content) ≤
        cosineSimilarity (generateEmbedding []) (generateEmbedding c.content)) ∧
    (retrieveRelevantChunks [] ([⟨"c0", [], "f", 0, none⟩] : List DocumentChunk) 1).filter
        (fun c => decide (scoreOf [] c = 0)) <+:
      ([⟨"c0", [], "f", 0, none⟩] : List DocumentChunk).filter
        (fun c => decide (scoreOf [] c = 0)) :=
  c7_retrieve_topk [] ([⟨"c0", [], "f", 0, none⟩] : List DocumentChunk) 1 0 (by simp)


/-! ### The streaming decoder: structural lemmas (claims C1, C2, C8) -/

theorem processLine_buffer (st : DecState) (l : List Char) :
    (processLine st l).buffer = st.buffer := by
  rw [processLine]
  dsimp only
  repeat' split
  all_goals rfl

/-- `processLine` reads only the line, never the carry-over buffer, and
never writes the buffer: the buffer field passes through untouched. -/
theorem processLine_buffer_irrel (st : DecState) (L line : List Char) :
    processLine { st with buffer := L } line = { processLine st line with buffer := L } := by
  rw [processLine, processLine]
  dsimp only
  repeat' split
  all_goals rfl

theorem splitNl_ne_nil (l : List Char) : splitNl l ≠ [] := by
  induction l with
  | nil => simp [splitNl]
  | cons c cs ih =>
    rw [splitNl]
    split
    · simp
    · split
      · simp
      · simp

theorem splitNl_noNl (l : List Char) (h : ∀ c ∈ l, c ≠ '\n') : splitNl l = [l] := by
  induction l with
  | nil => rfl
  | cons c cs ih =>
    rw [splitNl, if_neg (by simpa using h c (by simp))]
    rw [ih fun x hx => h x (by simp [hx])]

theorem splitNl_append_noNl (a b : List Char) (ha : ∀ c ∈ a, c ≠ '\n') :
    splitNl (a ++ b) = (splitNl b).modifyHead (a ++ ·) := by
  induction a with
  | nil =>
    cases hsb : splitNl b with
    | nil => exact absurd hsb (splitNl_ne_nil b)
    | cons seg rest => rw [List.nil_append, hsb]; simp [List.modifyHead]
  | cons c a ih =>
    rw [List.cons_append, splitNl, if_neg (by simpa using ha c (by simp))]
    rw [ih fun x hx => ha x (by simp [hx])]
    cases hsb : splitNl b with
    | nil => exact absurd hsb (splitNl_ne_nil b)
    | cons seg rest => simp [List.modifyHead]

theorem splitNl_split (a b : List Char) (ha : ∀ c ∈ a, c ≠ '\n') :
    splitNl (a ++ '\n' :: b) = a :: splitNl b := by
  rw [splitNl_append_noNl a _ ha]
  rw [show splitNl ('\n' :: b) = [] :: splitNl b from by rw [splitNl]; simp]
  simp [List.modifyHead]

theorem getLastD_irrel {α : Type} (l : List α) (h : l ≠ []) (d1 d2 : α) :
    l.getLastD d1 = l.getLastD d2 := by
  cases l with
  | nil => exact absurd rfl h
  | cons x t => rw [List.getLastD_cons, List.getLastD_cons]

theorem dropLast_cons_of_ne_nil {α : Type} (x : α) (l : List α) (h : l ≠ []) :
    (x :: l).dropLast = x :: l.dropLast := by
  cases l with
  | nil => exact absurd rfl h
  | cons y t => rfl

theorem charRun_append (st : DecState) (a b : List Char) :
    charRun st (a ++ b) = charRun (charRun st a) b :=
  List.foldl_append stepChar st a b

theorem charRun_absorb (st : DecState) (s : List Char) (h : st.seenDone = true) :
    charRun st s = st := by
  induction s generalizing st with
  | nil => rfl
  | cons c cs ih =>
    rw [charRun, List.foldl_cons]
    rw [show stepChar st c = st from by rw [stepChar, if_pos h]]
    exact ih st h

theorem charRun_noNl (s : List Char) : ∀ st : DecState, st.seenDone = false →
    (∀ c ∈ s, c ≠ '\n') →
    charRun st s = { st with buffer := st.buffer ++ s } := by
  induction s with
  | nil => intro st _ _; simp [charRun]
  | cons c cs ih =>
    intro st hsd hns
    have h1 : stepChar st c = { st with buffer := st.buffer ++ [c] } := by
      rw [stepChar, if_neg (by simp [hsd]), if_neg (by simpa using hns c (by simp))]
    calc charRun st (c :: cs) = charRun (stepChar st c) cs := rfl
      _ = charRun { st with buffer := st.buffer ++ [c] } cs := by rw [h1]
      _ = { st with buffer := (st.buffer ++ [c]) ++ cs } :=
          ih _ hsd fun x hx => hns x (by simp [hx])
      _ = { st with buffer := st.buffer ++ c :: cs } := by simp


/-- The key split-invariance lemma: one iteration of the source's read loop
(buffer concatenation, newline split, line processing with the sentinel
break) is exactly a run of the character machine over the delivered string,
except that after the sentinel the source's buffer keeps the final partial
segment while the absorbing character machine leaves it empty. -/
theorem readEquiv (s : List Char) (st : DecState)
    (hsd : st.seenDone = false) (hbuf : ∀ c ∈ st.buffer, c ≠ '\n') :
    processRead st s =
      if (charRun st s).seenDone
      then { charRun st s with buffer := (splitNl (st.buffer ++ s)).getLastD [] }
      else charRun st s := by
  by_cases hnl : '\n' ∈ s
  · -- s = a ++ '\n' :: b at the first newline
    have hsplit0 : s.takeWhile (fun c => c != '\n') ++ s.dropWhile (fun c => c != '\n') = s :=
      List.takeWhile_append_dropWhile _ _
    have hdrop_ne : s.dropWhile (fun c => c != '\n') ≠ [] := by
      intro h0
      rw [List.dropWhile_eq_nil_iff] at h0
      have := h0 '\n' hnl
      simp at this
    rcases hd : s.dropWhile (fun c => c != '\n') with _ | ⟨c, b⟩
    · exact absurd hd hdrop_ne
    · have hc : c = '\n' := by
        have hh := List.head?_dropWhile_not (fun c => c != '\n') s
        rw [hd] at hh
        simpa using hh
      subst hc
      set a := s.takeWhile (fun c => c != '\n') with hadef
      have hs : s = a ++ '\n' :: b := by rw [hadef, ← hd, hsplit0]
      have hano : ∀ x ∈ a, x ≠ '\n' := by
        intro x hx
        have := List.mem_takeWhile_imp hx
        simpa using this
      have hBa : ∀ x ∈ st.buffer ++ a, x ≠ '\n' := by
        intro x hx
        rcases List.mem_append.mp hx with h | h
        · exact hbuf x h
        · exact hano x h
      have hstepA : charRun st a = { st with buffer := st.buffer ++ a } :=
        charRun_noNl a st hsd hano
      have hstepNl : stepChar { st with buffer := st.buffer ++ a } '\n' =
          processLine { st with buffer := [] } (st.buffer ++ a) := by
        rw [stepChar, if_neg (by simp [hsd]), if_pos rfl]
      have hf1 : charRun st s = charRun (processLine { st with buffer := [] } (st.buffer ++ a)) b := by
        rw [hs, show a ++ '\n' :: b = (a ++ ['\n']) ++ b from by simp, charRun_append,
          show charRun st (a ++ ['\n']) = stepChar (charRun st a) '\n' from by
            rw [charRun_append]; rfl,
          hstepA, hstepNl]
      have hsegs : splitNl (st.buffer ++ s) = (st.buffer ++ a) :: splitNl b := by
        rw [hs, show st.buffer ++ (a ++ '\n' :: b) = (st.buffer ++ a) ++ '\n' :: b from by
          rw [List.append_assoc]]
        exact splitNl_split _ _ hBa
      have hbufL : (processLine { st with buffer := [] } (st.buffer ++ a)).buffer = [] :=
        processLine_buffer _ _
      have hPst : processLine st (st.buffer ++ a) =
          { processLine { st with buffer := [] } (st.buffer ++ a) with buffer := st.buffer } :=
        processLine_buffer_irrel { st with buffer := [] } st.buffer (st.buffer ++ a)
      have hlast : (splitNl (st.buffer ++ s)).getLastD [] = (splitNl b).getLastD [] := by
        rw [hsegs, List.getLastD_cons]
        exact getLastD_irrel _ (splitNl_ne_nil b) _ _
      have hLHS : processRead st s =
          if (processLine { st with buffer := [] } (st.buffer ++ a)).seenDone
          then { processLine { st with buffer := [] } (st.buffer ++ a) with
                   buffer := (splitNl b).getLastD [] }
          else processLineList
            { processLine { st with buffer := [] } (st.buffer ++ a) with
                buffer := (splitNl b).getLastD [] }
            ((splitNl b).dropLast) := by
        rw [processRead, hsegs, List.getLastD_cons,
          getLastD_irrel _ (splitNl_ne_nil b) (st.buffer ++ a) [],
          dropLast_cons_of_ne_nil _ _ (splitNl_ne_nil b)]
        rw [processLineList]
        rw [processLine_buffer_irrel, hPst]
      by_cases hdL : (processLine { st with buffer := [] } (st.buffer ++ a)).seenDone
      · have habs : charRun st s = processLine { st with buffer := [] } (st.buffer ++ a) := by
          rw [hf1, charRun_absorb _ _ hdL]
        rw [hLHS]
        rw [if_pos hdL]
        rw [habs]
        rw [if_pos hdL]
        rw [hlast]
      · have hdL' : (processLine { st with buffer := [] } (st.buffer ++ a)).seenDone = false := by
          simp only [Bool.not_eq_true] at hdL
          exact hdL
        have hIH := readEquiv b (processLine { st with buffer := [] } (st.buffer ++ a)) hdL'
          (by rw [hbufL]; intro c hc; simp at hc)
        have hpr : processRead (processLine { st with buffer := [] } (st.buffer ++ a)) b =
            processLineList
              { processLine { st with buffer := [] } (st.buffer ++ a) with
                  buffer := (splitNl b).getLastD [] }
              ((splitNl b).dropLast) := by
          rw [processRead, hbufL, List.nil_append]
        rw [hLHS]
        rw [if_neg (by simp [hdL'])]
        rw [← hpr]
        rw [hIH]
        rw [hf1]
        rw [hbufL]
        rw [List.nil_append]
        rw [hlast]
  · -- no newline delivered: the whole read lands in the buffer
    have hnoNl : ∀ c ∈ s, c ≠ '\n' := fun c hc he => hnl (he ▸ hc)
    have hchar := charRun_noNl s st hsd hnoNl
    have hnoBufS : ∀ c ∈ st.buffer ++ s, c ≠ '\n' := by
      intro c hc
      rcases List.mem_append.mp hc with h | h
      · exact hbuf c h
      · exact hnoNl c h
    have hdone : (charRun st s).seenDone = false := by rw [hchar]; exact hsd
    rw [if_neg (by simp [hdone])]
    rw [processRead, splitNl_noNl _ hnoBufS, hchar]
    rfl
termination_by s.length
decreasing_by
  simp only [hs, List.length_append, List.length_cons]
  omega


theorem processLineList_buffer (ls : List (List Char)) :
    ∀ st : DecState, (processLineList st ls).buffer = st.buffer := by
  induction ls with
  | nil => intro st; rfl
  | cons l ls ih =>
    intro st
    rw [processLineList]
    by_cases h : (processLine st l).seenDone
    · rw [if_pos h, processLine_buffer]
    · rw [if_neg h, ih, processLine_buffer]

theorem processRead_buffer (st : DecState) (r : List Char) :
    (processRead st r).buffer = (splitNl (st.buffer ++ r)).getLastD [] := by
  rw [processRead, processLineList_buffer]

theorem charRun_buffer_noNl (s : List Char) :
    ∀ st : DecState, (∀ c ∈ st.buffer, c ≠ '\n') →
      ∀ c ∈ (charRun st s).buffer, c ≠ '\n' := by
  induction s with
  | nil => intro st h; exact h
  | cons c cs ih =>
    intro st h
    have hstep : ∀ x ∈ (stepChar st c).buffer, x ≠ '\n' := by
      rw [stepChar]
      by_cases hsd : st.seenDone = true
      · rw [if_pos hsd]; exact h
      · rw [if_neg hsd]
        by_cases hc : c = '\n'
        · rw [if_pos hc, processLine_buffer]
          intro x hx
          simp at hx
        · rw [if_neg hc]
          intro x hx
          rcases List.mem_append.mp hx with h1 | h1
          · exact h x h1
          · simp at h1; subst h1; exact hc
    exact ih (stepChar st c) hstep

theorem charRun_buffer_eq (s : List Char) (st : DecState)
    (hsd : st.seenDone = false) (hbuf : ∀ c ∈ st.buffer, c ≠ '\n')
    (hnd : (charRun st s).seenDone = false) :
    (charRun st s).buffer = (splitNl (st.buffer ++ s)).getLastD [] := by
  have h := readEquiv s st hsd hbuf
  rw [if_neg (by simp [hnd])] at h
  rw [← h, processRead_buffer]

/-- The trailing partial segment depends only on the previous trailing
partial segment: `lastSeg (lastSeg p ++ r) = lastSeg (p ++ r)`. -/
theorem lastSegD_idem (p r : List Char) :
    (splitNl ((splitNl p).getLastD [] ++ r)).getLastD [] =
      (splitNl (p ++ r)).getLastD [] := by
  by_cases hnl : '\n' ∈ p
  · have hsplit0 : p.takeWhile (fun c => c != '\n') ++ p.dropWhile (fun c => c != '\n') = p :=
      List.takeWhile_append_dropWhile _ _
    have hdrop_ne : p.dropWhile (fun c => c != '\n') ≠ [] := by
      intro h0
      rw [List.dropWhile_eq_nil_iff] at h0
      have := h0 '\n' hnl
      simp at this
    rcases hd : p.dropWhile (fun c => c != '\n') with _ | ⟨c, p2⟩
    · exact absurd hd hdrop_ne
    · have hc : c = '\n' := by
        have hh := List.head?_dropWhile_not (fun c => c != '\n') p
        rw [hd] at hh
        simpa using hh
      subst hc
      set a := p.takeWhile (fun c => c != '\n') with hadef
      have hano : ∀ x ∈ a, x ≠ '\n' := by
        intro x hx
        have := List.mem_takeWhile_imp hx
        simpa using this
      have hp : p = a ++ '\n' :: p2 := by rw [hadef, ← hd, hsplit0]
      have hsplitp : splitNl p = a :: splitNl p2 := by
        rw [hp]
        exact splitNl_split _ _ hano
      have hlastp : (splitNl p).getLastD [] = (splitNl p2).getLastD [] := by
        rw [hsplitp, List.getLastD_cons]
        exact getLastD_irrel _ (splitNl_ne_nil p2) _ _
      have hsplitpr : splitNl (p ++ r) = a :: splitNl (p2 ++ r) := by
        rw [hp, List.append_assoc, List.cons_append]
        exact splitNl_split _ _ hano
      have hIH := lastSegD_idem p2 r
      rw [hlastp, hIH, hsplitpr, List.getLastD_cons]
      exact (getLastD_irrel _ (splitNl_ne_nil (p2 ++ r)) _ _).symm
  · have hnoNl : ∀ c ∈ p, c ≠ '\n' := fun c hc he => hnl (he ▸ hc)
    rw [splitNl_noNl p hnoNl]
    rfl
termination_by p.length
decreasing_by
  have hlen : (List.dropWhile (fun c => c != '\n') p).length ≤ p.length :=
    (List.dropWhile_suffix _).length_le
  rw [hd] at hlen
  simp only [List.length_cons] at hlen
  omega

/-- Concrete evaluation: the full four-frame input drives the character
machine to the sentinel state with the two content chunks emitted and the
usage object captured. -/
theorem charRun_streamInput :
    charRun initState streamInput =
      ⟨[], some usageJsonSnake, true, [Ev.chunk (.str "Hel"), Ev.chunk (.str "lo")]⟩ := rfl

theorem lastSegD_streamInput : (splitNl streamInput).getLastD [] = [] := rfl

theorem streamInput_decomp :
    streamInput =
      (lineFrame1 ++ ['\n']) ++ ((lineFrame2 ++ ['\n']) ++
        ((lineFrame3 ++ ['\n']) ++ (lineFrame4 ++ ['\n']))) := by decide

theorem lineFrame1_noNl : ∀ c ∈ lineFrame1, c ≠ '\n' := by decide

theorem lineFrame2_noNl : ∀ c ∈ lineFrame2, c ≠ '\n' := by decide

theorem lineFrame3_noNl : ∀ c ∈ lineFrame3, c ≠ '\n' := by decide

theorem lineFrame4_noNl : ∀ c ∈ lineFrame4, c ≠ '\n' := by decide

theorem charRun_line1 :
    charRun initState (lineFrame1 ++ ['\n']) =
      ⟨[], none, false, [Ev.chunk (.str "Hel")]⟩ := rfl

theorem charRun_line2 :
    charRun (⟨[], none, false, [Ev.chunk (.str "Hel")]⟩ : DecState) (lineFrame2 ++ ['\n']) =
      ⟨[], none, false, [Ev.chunk (.str "Hel"), Ev.chunk (.str "lo")]⟩ := rfl

theorem charRun_line3 :
    charRun (⟨[], none, false, [Ev.chunk (.str "Hel"), Ev.chunk (.str "lo")]⟩ : DecState)
        (lineFrame3 ++ ['\n']) =
      ⟨[], some usageJsonSnake, false, [Ev.chunk (.str "Hel"), Ev.chunk (.str "lo")]⟩ := rfl

theorem prefix_append_cases {α : Type} (A B q : List α) (h : q <+: A ++ B) :
    q <+: A ∨ ∃ q2, q = A ++ q2 ∧ q2 <+: B := by
  induction A generalizing q with
  | nil =>
    right
    exact ⟨q, rfl, by simpa using h⟩
  | cons x A ih =>
    cases q with
    | nil => left; exact List.nil_prefix
    | cons y q1 =>
      rw [List.cons_append] at h
      obtain ⟨hy, hq⟩ := List.cons_prefix_cons.mp h
      subst hy
      rcases ih q1 hq with h1 | ⟨q2, rfl, h2⟩
      · left; exact List.cons_prefix_cons.mpr ⟨rfl, h1⟩
      · right; exact ⟨q2, by simp, h2⟩

theorem prefix_singleton_cases {α : Type} (x : α) (q : List α) (h : q <+: [x]) :
    q = [] ∨ q = [x] := by
  cases q with
  | nil => exact Or.inl rfl
  | cons y t =>
    obtain ⟨hy, ht⟩ := List.cons_prefix_cons.mp h
    subst hy
    right
    rw [List.prefix_nil.mp ht]

/-- Running a prefix of a newline-free line only fills the buffer: the
sentinel flag is untouched. -/
theorem charRun_prefix_noNl_seenDone (S : DecState) (hS : S.seenDone = false)
    (L q : List Char) (hno : ∀ c ∈ L, c ≠ '\n') (hq : q <+: L) :
    (charRun S q).seenDone = false := by
  have hqno : ∀ c ∈ q, c ≠ '\n' := fun c hc => hno c (hq.subset hc)
  rw [charRun_noNl q S hS hqno]
  exact hS


/-- No proper prefix of the four-frame input reaches the sentinel: the
`[DONE]` line is completed only by the input's very last newline. -/
theorem charRun_prefix_streamInput (q : List Char) (hq : q <+: streamInput)
    (hne : q ≠ streamInput) : (charRun initState q).seenDone = false := by
  rw [streamInput_decomp] at hq
  rcases prefix_append_cases _ _ q hq with h1 | ⟨q1, rfl, h1⟩
  · -- inside the first line or exactly it
    rcases prefix_append_cases _ _ q h1 with h2 | ⟨q2, rfl, h2⟩
    · exact charRun_prefix_noNl_seenDone initState rfl lineFrame1 q lineFrame1_noNl h2
    · rcases prefix_singleton_cases _ _ h2 with rfl | rfl
      · rw [List.append_nil]
        exact charRun_prefix_noNl_seenDone initState rfl lineFrame1 lineFrame1
          lineFrame1_noNl (List.prefix_refl _)
      · rw [charRun_line1]
  · rw [charRun_append, charRun_line1]
    rcases prefix_append_cases _ _ q1 h1 with h2 | ⟨q2, rfl, h2⟩
    · rcases prefix_append_cases _ _ q1 h2 with h3 | ⟨q3, rfl, h3⟩
      · exact charRun_prefix_noNl_seenDone _ rfl lineFrame2 q1 lineFrame2_noNl h3
      · rcases prefix_singleton_cases _ _ h3 with rfl | rfl
        · rw [List.append_nil]
          exact charRun_prefix_noNl_seenDone _ rfl lineFrame2 lineFrame2
            lineFrame2_noNl (List.prefix_refl _)
        · rw [charRun_line2]
    · rw [charRun_append, charRun_line2]
      rcases prefix_append_cases _ _ q2 h2 with h3 | ⟨q3, rfl, h3⟩
      · rcases prefix_append_cases _ _ q2 h3 with h4 | ⟨q4, rfl, h4⟩
        · exact charRun_prefix_noNl_seenDone _ rfl lineFrame3 q2 lineFrame3_noNl h4
        · rcases prefix_singleton_cases _ _ h4 with rfl | rfl
          · rw [List.append_nil]
            exact charRun_prefix_noNl_seenDone _ rfl lineFrame3 lineFrame3
              lineFrame3_noNl (List.prefix_refl _)
          · rw [charRun_line3]
      · rw [charRun_append, charRun_line3]
        rcases prefix_append_cases _ _ q3 h3 with h4 | ⟨q4, rfl, h4⟩
        · exact charRun_prefix_noNl_seenDone _ rfl lineFrame4 q3 lineFrame4_noNl h4
        · rcases prefix_singleton_cases _ _ h4 with rfl | rfl
          · rw [List.append_nil]
            exact charRun_prefix_noNl_seenDone _ rfl lineFrame4 lineFrame4
              lineFrame4_noNl (List.prefix_refl _)
          · exact absurd streamInput_decomp.symm hne

/-- However the four-frame input is split into reads, the read loop ends in
the sentinel state with chunks `"Hel"`, `"lo"` emitted, the usage object
captured, and an empty carry-over buffer. -/
theorem runReads_streamInput : ∀ (reads : List (List Char)) (p : List Char),
    p ++ reads.flatten = streamInput →
    (charRun initState p).seenDone = false →
    (runReads (charRun initState p) reads).1 =
      ⟨[], some usageJsonSnake, true, [Ev.chunk (.str "Hel"), Ev.chunk (.str "lo")]⟩ := by
  intro reads
  induction reads with
  | nil =>
    intro p hp hnd
    rw [List.flatten_nil, List.append_nil] at hp
    subst hp
    rw [charRun_streamInput] at hnd
    simp at hnd
  | cons r rs ih =>
    intro p hp hnd
    have hinitbuf : ∀ c ∈ (initState : DecState).buffer, c ≠ '\n' := by
      intro c hc
      simp [initState] at hc
    have hbufn : ∀ c ∈ (charRun initState p).buffer, c ≠ '\n' :=
      charRun_buffer_noNl p initState hinitbuf
    have hre := readEquiv r (charRun initState p) hnd hbufn
    have hflat : (p ++ r) ++ rs.flatten = streamInput := by
      rw [List.append_assoc, ← List.flatten_cons]
      exact hp
    rw [runReads]
    by_cases hc : (charRun (charRun initState p) r).seenDone
    · have heq : p ++ r = streamInput := by
        by_contra hne
        have hfalse := charRun_prefix_streamInput (p ++ r) ⟨rs.flatten, hflat⟩ hne
        rw [charRun_append] at hfalse
        rw [hfalse] at hc
        simp at hc
      have hfull : charRun (charRun initState p) r =
          ⟨[], some usageJsonSnake, true, [Ev.chunk (.str "Hel"), Ev.chunk (.str "lo")]⟩ := by
        rw [← charRun_append, heq, charRun_streamInput]
      have hbufp : (charRun initState p).buffer = (splitNl p).getLastD [] := by
        have h0 := charRun_buffer_eq p initState rfl hinitbuf hnd
        simpa [initState] using h0
      have hlastseg : (splitNl ((charRun initState p).buffer ++ r)).getLastD [] = [] := by
        rw [hbufp, lastSegD_idem, heq, lastSegD_streamInput]
      rw [hre, if_pos hc, hfull, hlastseg]
      simp
    · have hnd2 : (charRun initState (p ++ r)).seenDone = false := by
        rw [charRun_append]
        simpa using hc
      rw [hre, if_neg hc]
      rw [show charRun (charRun initState p) r = charRun initState (p ++ r) from
        (charRun_append _ _ _).symm]
      rw [if_neg (by simp [hnd2])]
      exact ih (p ++ r) hflat hnd2

/-- Claim C1 (amended to the wire's usage field names): for every split of
the four-frame stream into reads, the client emits exactly
`Chunk("Hel")`, `Chunk("lo")`, then `onComplete` with the usage object
whose `prompt_tokens`/`completion_tokens`/`total_tokens` read as
`(5, 2, 7)`, no further events, and releases the reader exactly once. -/
theorem c1_stream_decode_wire_fields (reads : List (List Char))
    (h : reads.flatten = streamInput) :
    chatWithOpenRouterStream reads .closed =
      ([Ev.chunk (.str "Hel"), Ev.chunk (.str "lo"), Ev.complete usageJsonSnake], 1) ∧
    usageNums usageJsonSnake = (5, 2, 7) := by
  refine ⟨?_, rfl⟩
  have hrun : (runReads initState reads).1 =
      ⟨[], some usageJsonSnake, true, [Ev.chunk (.str "Hel"), Ev.chunk (.str "lo")]⟩ :=
    runReads_streamInput reads [] (by simpa using h) rfl
  rw [chatWithOpenRouterStream]
  by_cases hb : (runReads initState reads).2
  · rw [if_pos hb, hrun]
    rfl
  · rw [if_neg hb, hrun]
    rfl

theorem c1_stream_decode_wire_fields_witness :
    [streamInput].flatten = streamInput ∧
    chatWithOpenRouterStream [streamInput] .closed =
      ([Ev.chunk (.str "Hel"), Ev.chunk (.str "lo"), Ev.complete usageJsonSnake], 1) ∧
    usageNums usageJsonSnake = (5, 2, 7) :=
  ⟨by simp, (c1_stream_decode_wire_fields [streamInput] (by simp)).1,
    (c1_stream_decode_wire_fields [streamInput] (by simp)).2⟩

/-- Counterexample to claim C1 as stated: feeding the claim's verbatim
frames (camel-case usage keys) through the decoder delivers a usage object
whose `prompt_tokens`/`completion_tokens`/`total_tokens` — the fields the
client's usage type declares and its consumer reads via
`usage.prompt_tokens || 0` — are all `0`, not `(5, 2, 7)`. -/
theorem c1_camelcase_counterexample :
    chatWithOpenRouterStream [streamInputCamel] .closed =
      ([Ev.chunk (.str "Hel"), Ev.chunk (.str "lo"), Ev.complete usageJsonCamel], 1) ∧
    usageNums usageJsonCamel = (0, 0, 0) ∧ usageNums usageJsonCamel ≠ (5, 2, 7) :=
  ⟨rfl, rfl, by decide⟩


/-! ### Cancellation and malformed frames (claims C2, C8) -/

/-- A processed line can only append `Chunk` events: the terminal events
(`onComplete`/`onError`) are never produced inside the read loop. -/
theorem processLine_filter_terminal (st : DecState) (l : List Char) :
    (processLine st l).events.filter isTerminalEv = st.events.filter isTerminalEv := by
  rw [processLine]
  dsimp only
  repeat' split
  all_goals simp [List.filter_append, isTerminalEv]

theorem processLineList_filter_terminal (ls : List (List Char)) :
    ∀ st : DecState,
      (processLineList st ls).events.filter isTerminalEv = st.events.filter isTerminalEv := by
  induction ls with
  | nil => intro st; rfl
  | cons l ls ih =>
    intro st
    rw [processLineList]
    by_cases h : (processLine st l).seenDone
    · rw [if_pos h, processLine_filter_terminal]
    · rw [if_neg h, ih, processLine_filter_terminal]

theorem processRead_filter_terminal (st : DecState) (r : List Char) :
    (processRead st r).events.filter isTerminalEv = st.events.filter isTerminalEv := by
  rw [processRead, processLineList_filter_terminal]

theorem runReads_filter_terminal (reads : List (List Char)) :
    ∀ st : DecState,
      ((runReads st reads).1).events.filter isTerminalEv = st.events.filter isTerminalEv := by
  induction reads with
  | nil => intro st; rfl
  | cons r rs ih =>
    intro st
    rw [runReads]
    by_cases h : (processRead st r).seenDone
    · rw [if_pos h]
      exact processRead_filter_terminal st r
    · rw [if_neg h, ih, processRead_filter_terminal]

/-- Claim C2: when the stream is cancelled mid-flight (the next read
rejects with the abort cause) after content has been delivered, the only
terminal notification is the single abort (`onError` with `AbortError`):
no `onComplete` (UsageFinal), no non-abort error, the orchestrator writes
no error text for it, and the reader lock is released exactly once. -/
theorem c2_cancellation_aborts_only (reads : List (List Char))
    (hnd : (runReads initState reads).2 = false)
    (hchunk : ∃ v, Ev.chunk v ∈ (runReads initState reads).1.events) :
    (chatWithOpenRouterStream reads (.errored true)).1.filter isTerminalEv =
      [Ev.errorEv true] ∧
    errorShowsMessage true = false ∧
    (chatWithOpenRouterStream reads (.errored true)).2 = 1 := by
  refine ⟨?_, rfl, ?_⟩
  · rw [chatWithOpenRouterStream, if_neg (by simp [hnd])]
    dsimp only
    rw [List.filter_append, runReads_filter_terminal]
    simp [initState, isTerminalEv]
  · rw [chatWithOpenRouterStream, if_neg (by simp [hnd])]

theorem c2_cancellation_aborts_only_witness :
    (chatWithOpenRouterStream [lineFrame1 ++ ['\n']] (.errored true)).1.filter isTerminalEv =
      [Ev.errorEv true] ∧
    errorShowsMessage true = false ∧
    (chatWithOpenRouterStream [lineFrame1 ++ ['\n']] (.errored true)).2 = 1 :=
  c2_cancellation_aborts_only [lineFrame1 ++ ['\n']] rfl
    ⟨.str "Hel", by
      rw [show (runReads initState [lineFrame1 ++ ['\n']]).1.events =
        [Ev.chunk (.str "Hel")] from rfl]
      simp⟩

/-- Claim C8: a `data: ` line whose payload is neither the sentinel nor
valid JSON leaves the decoder state untouched — the line is skipped, the
stream is not aborted, no event and no error is produced — and deleting
such a line from the processed line sequence does not change the result
(later well-formed frames still contribute their deltas and usage). -/
theorem c8_malformed_frame_skipped (line : List Char) (st : DecState)
    (pre post : List (List Char))
    (hdata : "data: ".toList.isPrefixOf line = true)
    (hnd : line.drop 6 ≠ "[DONE]".toList)
    (hbad : jsonParse (line.drop 6) = none)
    (hsd : st.seenDone = false) :
    processLine st line = st ∧
    processLineList st (pre ++ line :: post) = processLineList st (pre ++ post) := by
  have hpre : "data: ".toList <+: line := List.isPrefixOf_iff_prefix.mp hdata
  obtain ⟨t, ht⟩ := hpre
  have hline : ∀ s : DecState, processLine s line = s := by
    intro s
    rw [processLine]
    rw [if_neg (show ¬(line.all isWsChar = true) from by
      rw [← ht]; simp [isWsChar])]
    rw [if_neg (show ¬(line.head? = some ':') from by
      rw [← ht]; simp)]
    rw [if_pos hdata]
    dsimp only
    rw [if_neg hnd, hbad]
  have main : ∀ (pre : List (List Char)) (s : DecState), s.seenDone = false →
      processLineList s (pre ++ line :: post) = processLineList s (pre ++ post) := by
    intro pre
    induction pre with
    | nil =>
      intro s hsd0
      rw [List.nil_append, List.nil_append, processLineList, hline s]
      rw [if_neg (by simp [hsd0])]
    | cons l ls ih =>
      intro s hsd0
      rw [List.cons_append, List.cons_append, processLineList, processLineList]
      by_cases h : (processLine s l).seenDone
      · rw [if_pos h, if_pos h]
      · rw [if_neg h, if_neg h]
        exact ih (processLine s l) (by simpa using h)
  exact ⟨hline st, main pre st hsd⟩

theorem c8_malformed_frame_skipped_witness :
    processLine initState badLine = initState ∧
    processLineList initState ([lineFrame1] ++ badLine :: [lineFrame3]) =
      processLineList initState ([lineFrame1] ++ [lineFrame3]) :=
  c8_malformed_frame_skipped badLine initState [lineFrame1] [lineFrame3]
    (by decide) (by decide) rfl rfl


/-! ### Context assembly (claim C3) -/

theorem retrieve_single (q : List Char) (c : DocumentChunk) :
    retrieveRelevantChunks q [c] 5 = [c] := rfl

theorem memoryBlock_single (m : Memory) :
    memoryBlock [m] [m.id] =
      some ("Relevant memories:\n".toList ++
        ("Memory: ".toList ++ m.title ++ '\n' :: m.content)) := by
  rw [memoryBlock]
  rw [if_neg (by simp)]
  have hfilter : ([m].filter fun mm => [m.id].contains mm.id) = [m] := by
    simp
  rw [hfilter]
  dsimp only
  have hjoin : joinSep "\n\n".toList
      ([m].map fun mm => "Memory: ".toList ++ mm.title ++ '\n' :: mm.content) =
      "Memory: ".toList ++ m.title ++ '\n' :: m.content := by
    simp [joinSep]
  rw [hjoin]
  rw [if_neg (by simp)]

theorem ragBlock_single (d : DocumentChunk) (input : List Char) :
    ragBlock [d] [d.fileName] input =
      some ("Relevant document excerpts:\n".toList ++
        ("[From ".toList ++ d.fileName.toList ++ "]: ".toList ++ d.content)) := by
  rw [ragBlock]
  rw [if_neg (by simp)]
  have hfilter : ([d].filter fun dd => [d.fileName].contains dd.fileName) = [d] := by
    simp
  rw [hfilter]
  rw [if_neg (by simp)]
  rw [retrieve_single]
  dsimp only
  have hjoin : joinSep "\n\n".toList
      ([d].map fun c => "[From ".toList ++ c.fileName.toList ++ "]: ".toList ++ c.content) =
      "[From ".toList ++ d.fileName.toList ++ "]: ".toList ++ d.content := by
    simp [joinSep]
  rw [hjoin]
  rw [if_neg (by simp)]

theorem takeLastJs_three_two (h1 h2 h3 : ChatMessage) :
    takeLastJs [h1, h2, h3] 2 = [h2, h3] := by
  rw [takeLastJs, if_neg (by norm_num)]
  rfl

/-- Claim C3 (amended: 6 messages, not 7): with a non-whitespace system
prompt, one selected memory, one selected document holding a single chunk
(so retrieval returns exactly that chunk), three history messages, a
history window of 2 and a fresh send, the outgoing sequence is exactly the
6 messages: system prompt, memory block, document block, the last two
history messages (oldest first, role and content unmodified), then the new
user message. -/
theorem c3_context_assembly_order (sys : List Char) (hsys : sys.all isWsChar = false)
    (m : Memory) (d : DocumentChunk) (h1 h2 h3 : ChatMessage) (input : List Char) :
    executeCompletionMessages sys [m] [m.id] [d] [d.fileName] [h1, h2, h3] 2 input false =
      [⟨Role.system, sys⟩,
       ⟨Role.system, "Relevant memories:\n".toList ++
         ("Memory: ".toList ++ m.title ++ '\n' :: m.content)⟩,
       ⟨Role.system, "Relevant document excerpts:\n".toList ++
         ("[From ".toList ++ d.fileName.toList ++ "]: ".toList ++ d.content)⟩,
       ⟨h2.role, h2.content⟩, ⟨h3.role, h3.content⟩,
       ⟨Role.user, input⟩] ∧
    (executeCompletionMessages sys [m] [m.id] [d] [d.fileName] [h1, h2, h3] 2 input
        false).length = 6 := by
  have hmain : executeCompletionMessages sys [m] [m.id] [d] [d.fileName] [h1, h2, h3] 2 input
      false =
      [⟨Role.system, sys⟩,
       ⟨Role.system, "Relevant memories:\n".toList ++
         ("Memory: ".toList ++ m.title ++ '\n' :: m.content)⟩,
       ⟨Role.system, "Relevant document excerpts:\n".toList ++
         ("[From ".toList ++ d.fileName.toList ++ "]: ".toList ++ d.content)⟩,
       ⟨h2.role, h2.content⟩, ⟨h3.role, h3.content⟩,
       ⟨Role.user, input⟩] := by
    rw [executeCompletionMessages]
    rw [memoryBlock_single, ragBlock_single, takeLastJs_three_two]
    rw [if_neg (show ¬(sys.all isWsChar = true) from by rw [hsys]; simp)]
    simp
  exact ⟨hmain, by rw [hmain]; rfl⟩

theorem c3_context_assembly_order_witness :
    "You are helpful.".toList.all isWsChar = false ∧
    executeCompletionMessages "You are helpful.".toList
        [⟨"m1", "T".toList, "C".toList⟩] ["m1"]
        [⟨"d1", "text".toList, "doc.txt", 0, none⟩] ["doc.txt"]
        [⟨"1", Role.user, "q1".toList, 0⟩, ⟨"2", Role.assistant, "a1".toList, 1⟩,
         ⟨"3", Role.user, "q2".toList, 2⟩] 2 "hi".toList false =
      [⟨Role.system, "You are helpful.".toList⟩,
       ⟨Role.system, "Relevant memories:\n".toList ++
         ("Memory: ".toList ++ "T".toList ++ '\n' :: "C".toList)⟩,
       ⟨Role.system, "Relevant document excerpts:\n".toList ++
         ("[From ".toList ++ "doc.txt".toList ++ "]: ".toList ++ "text".toList)⟩,
       ⟨Role.assistant, "a1".toList⟩, ⟨Role.user, "q2".toList⟩,
       ⟨Role.user, "hi".toList⟩] := by
  refine ⟨by decide, ?_⟩
  exact (c3_context_assembly_order "You are helpful.".toList (by decide)
    ⟨"m1", "T".toList, "C".toList⟩ ⟨"d1", "text".toList, "doc.txt", 0, none⟩
    ⟨"1", Role.user, "q1".toList, 0⟩ ⟨"2", Role.assistant, "a1".toList, 1⟩
    ⟨"3", Role.user, "q2".toList, 2⟩ "hi".toList).1

/-- Counterexample to claim C3 as stated: at the claim's configuration the
assembled sequence has exactly 6 messages, not 7 (the claimed item list —
system prompt, memory block, document block, two history messages, user
message — itself has five parts totalling six messages). -/
theorem c3_seven_messages_counterexample :
    (executeCompletionMessages "You are helpful.".toList
        [⟨"m1", "T".toList, "C".toList⟩] ["m1"]
        [⟨"d1", "text".toList, "doc.txt", 0, none⟩] ["doc.txt"]
        [⟨"1", Role.user, "q1".toList, 0⟩, ⟨"2", Role.assistant, "a1".toList, 1⟩,
         ⟨"3", Role.user, "q2".toList, 2⟩] 2 "hi".toList false).length = 6 ∧
    (executeCompletionMessages "You are helpful.".toList
        [⟨"m1", "T".toList, "C".toList⟩] ["m1"]
        [⟨"d1", "text".toList, "doc.txt", 0, none⟩] ["doc.txt"]
        [⟨"1", Role.user, "q1".toList, 0⟩, ⟨"2", Role.assistant, "a1".toList, 1⟩,
         ⟨"3", Role.user, "q2".toList, 2⟩] 2 "hi".toList false).length ≠ 7 := by
  refine ⟨rfl, fun h => ?_⟩
  have h6 : (executeCompletionMessages "You are helpful.".toList
      [⟨"m1", "T".toList, "C".toList⟩] ["m1"]
      [⟨"d1", "text".toList, "doc.txt", 0, none⟩] ["doc.txt"]
      [⟨"1", Role.user, "q1".toList, 0⟩, ⟨"2", Role.assistant, "a1".toList, 1⟩,
       ⟨"3", Role.user, "q2".toList, 2⟩] 2 "hi".toList false).length = 6 := rfl
  omega

end Nemonic
